import Mathlib

/-!
Verification of the binary asset decoding layer: the bounds-checked binary
cursor (BinaryReader), the Dreamcast texture decoder (PvrDecoder) and the
hierarchical model decoder (Mt5Loader), embedded shallowly.

Conventions of the embedding:
* a JS ArrayBuffer is a `List Nat` of bytes; typed-array storage is 8-bit,
  so every byte access reduces mod 256;
* a reader is the pair of its (immutable) buffer and its cursor position;
  read operations take `(buf, pos)` and return the value with the new
  position, mirroring the mutation of `this.offset` in the source;
* float32 fields are kept as their raw little-endian 32-bit patterns (the
  IEEE-754 interpretation is outside the decoded structure; the overrun
  default 0 is the pattern of the float 0 returned by the source, and JS
  float negation is the sign-bit flip on the pattern);
* bounded `while` loops of the source become structural recursion on the
  explicit loop bound where the source has one, and on a fuel parameter
  where the source loop is bounded only by cursor progress.
-/

/-! ## Binary Cursor (BinaryReader) -/

/-- Byte buffers handled by `BinaryReader`. -/
abbrev Bytes := List Nat

/-- One byte of the underlying DataView. Typed-array storage is 8-bit, so
values are reduced mod 256; out-of-range indices read 0 (every in-source
access is behind a bounds check). -/
def byteAt (buf : Bytes) (i : Nat) : Nat := buf.getD i 0 % 256

/-- `BinaryReader.canRead(len)`: `offset + len <= size`. -/
def canRead (buf : Bytes) (pos len : Nat) : Bool := pos + len ≤ buf.length

/-- `BinaryReader.readUInt8`. -/
def readUInt8 (buf : Bytes) (pos : Nat) : Nat × Nat :=
  if canRead buf pos 1 then (byteAt buf pos, pos + 1) else (0, buf.length)

/-- `BinaryReader.readUInt16` (little endian). -/
def readUInt16 (buf : Bytes) (pos : Nat) : Nat × Nat :=
  if canRead buf pos 2 then (byteAt buf pos + 256 * byteAt buf (pos + 1), pos + 2)
  else (0, buf.length)

/-- `BinaryReader.readUInt16At(pos)`: positional 16-bit read, no cursor. -/
def readUInt16At (buf : Bytes) (p : Nat) : Nat :=
  if buf.length < p + 2 then 0 else byteAt buf p + 256 * byteAt buf (p + 1)

/-- Little-endian 32-bit value assembled from four bytes at `p` (the
unguarded `DataView.getUint32` used where the source has its own guard). -/
def u32At (buf : Bytes) (p : Nat) : Nat :=
  byteAt buf p + 256 * byteAt buf (p + 1) + 65536 * byteAt buf (p + 2) +
    16777216 * byteAt buf (p + 3)

/-- `BinaryReader.readUInt32` (little endian). -/
def readUInt32 (buf : Bytes) (pos : Nat) : Nat × Nat :=
  if canRead buf pos 4 then (u32At buf pos, pos + 4) else (0, buf.length)

/-- Two's-complement reinterpretation of a 16-bit unsigned value. -/
def toInt16 (w : Nat) : Int := if w < 32768 then (w : Int) else (w : Int) - 65536

/-- Two's-complement reinterpretation of a 32-bit unsigned value. -/
def toInt32 (w : Nat) : Int :=
  if w < 2147483648 then (w : Int) else (w : Int) - 4294967296

/-- `BinaryReader.readInt16` (also aliased as `readShort` in the source). -/
def readInt16 (buf : Bytes) (pos : Nat) : Int × Nat :=
  if canRead buf pos 2 then
    (toInt16 (byteAt buf pos + 256 * byteAt buf (pos + 1)), pos + 2)
  else (0, buf.length)

/-- `BinaryReader.readInt32`. -/
def readInt32 (buf : Bytes) (pos : Nat) : Int × Nat :=
  if canRead buf pos 4 then (toInt32 (u32At buf pos), pos + 4) else (0, buf.length)

/-- `BinaryReader.readFloat32`, kept as the raw 32-bit pattern. The overrun
default 0 is the pattern of the float value 0 returned by the source. -/
def readFloat32 (buf : Bytes) (pos : Nat) : Nat × Nat :=
  if canRead buf pos 4 then (u32At buf pos, pos + 4) else (0, buf.length)

/-- `BinaryReader.readBytes(len)`: takes `actualLen = min(len, size - offset)`
bytes (empty without moving the cursor when nothing remains; natural
subtraction models the `actualLen <= 0` guard of the source). -/
def readBytes (buf : Bytes) (pos len : Nat) : List Nat × Nat :=
  if min len (buf.length - pos) = 0 then ([], pos)
  else ((buf.drop pos).take (min len (buf.length - pos)),
    pos + min len (buf.length - pos))

/-- `BinaryReader.readString(len)` as the list of character codes read: stops
at a zero byte and then advances the cursor over the remaining `len` bytes
without clamping, or stops early when the buffer ends. The recursion
parameter is the number of loop iterations left. -/
def readString (buf : Bytes) (pos : Nat) : Nat → List Nat × Nat
  | 0 => ([], pos)
  | len + 1 =>
    if canRead buf pos 1 then
      let c := byteAt buf pos
      if c = 0 then ([], pos + 1 + len)
      else
        let r := readString buf (pos + 1) len
        (c :: r.1, r.2)
    else ([], pos)

/-- `BinaryReader.seek(pos)`: clamped to `[0, size]`. -/
def seekPos (buf : Bytes) (p : Int) : Nat := (max 0 (min p (buf.length : Int))).toNat

/-- `BinaryReader.skip(len)`: `seek(offset + len)`; `len` may be negative. -/
def skipPos (buf : Bytes) (pos : Nat) (len : Int) : Nat := seekPos buf (pos + len)

/-- C3, counterexample: a cursor state with two bytes remaining and a
four-byte slice requested. `readBytes` returns the two remaining bytes,
not an empty slice, so the byte-slice half of the claim fails. -/
theorem readBytes_truncated_not_empty :
    canRead [5, 6] 0 4 = false ∧ (readBytes [5, 6] 0 4).1 ≠ [] ∧
      readBytes [5, 6] 0 4 = ([5, 6], 2) := by decide

/-- C3 (amended): on a read whose required bytes exceed the buffer, every
fixed-width numeric read (8/16/32-bit integers and the 32-bit float read)
sets the cursor to end-of-buffer and returns zero, and the byte-slice read
returns all bytes remaining past the cursor (empty exactly when none
remain), leaving the cursor at end-of-buffer whenever it started inside
the buffer; no read signals an error (all are total functions). -/
theorem reader_overrun_behavior (buf : Bytes) (pos : Nat) :
    (canRead buf pos 1 = false → readUInt8 buf pos = (0, buf.length)) ∧
    (canRead buf pos 2 = false → readUInt16 buf pos = (0, buf.length)) ∧
    (canRead buf pos 4 = false → readUInt32 buf pos = (0, buf.length)) ∧
    (canRead buf pos 2 = false → readInt16 buf pos = (0, buf.length)) ∧
    (canRead buf pos 4 = false → readInt32 buf pos = (0, buf.length)) ∧
    (canRead buf pos 4 = false → readFloat32 buf pos = (0, buf.length)) ∧
    (∀ len, canRead buf pos len = false →
      (readBytes buf pos len).1 = buf.drop pos ∧
      (readBytes buf pos len).2 = if pos < buf.length then buf.length else pos) := by
  refine ⟨?_, ?_, ?_, ?_, ?_, ?_, ?_⟩
  · intro h; simp [readUInt8, h]
  · intro h; simp [readUInt16, h]
  · intro h; simp [readUInt32, h]
  · intro h; simp [readInt16, h]
  · intro h; simp [readInt32, h]
  · intro h; simp [readFloat32, h]
  · intro len h
    have hlen : buf.length < pos + len := by
      simp [canRead] at h; omega
    have hmin : min len (buf.length - pos) = buf.length - pos := by omega
    unfold readBytes
    simp only [hmin]
    by_cases hp : pos < buf.length
    · have hne : buf.length - pos ≠ 0 := by omega
      rw [if_neg hne]
      refine ⟨List.take_of_length_le (by simp), ?_⟩
      show pos + (buf.length - pos) = _
      rw [if_pos hp]
      omega
    · have hz : buf.length - pos = 0 := by omega
      rw [hz, if_pos rfl]
      refine ⟨?_, ?_⟩
      · show ([] : List Nat) = buf.drop pos
        exact (List.drop_eq_nil_of_le (by omega)).symm
      · show pos = _
        rw [if_neg hp]

/-- C3, witness: the amended behavior evaluated on the empty buffer. -/
theorem reader_overrun_behavior_witness :
    readUInt8 [] 0 = (0, 0) ∧ readUInt16 [] 0 = (0, 0) ∧ readUInt32 [] 0 = (0, 0) ∧
      readInt16 [] 0 = (0, 0) ∧ readInt32 [] 0 = (0, 0) ∧ readFloat32 [] 0 = (0, 0) ∧
      (readBytes [] 0 4).1 = [] ∧ (readBytes [] 0 4).2 = 0 := by
  obtain ⟨h1, h2, h3, h4, h5, h6, h7⟩ := reader_overrun_behavior [] 0
  exact ⟨h1 (by decide), h2 (by decide), h3 (by decide), h4 (by decide),
    h5 (by decide), h6 (by decide), (h7 4 (by decide)).1, (h7 4 (by decide)).2⟩

/-! ## Texture decoder (PvrDecoder) -/

/-- `PvrDecoder.decodeColor`: expand one 16-bit color to `(r, g, b, a)`
under the given pixel format (0 = ARGB1555, 1 = RGB565, 2 = ARGB4444,
anything else solid white opaque). -/
def decodeColor (v format : Nat) : Nat × Nat × Nat × Nat :=
  if format = 0 then
    (((v >>> 10) &&& 0x1f) <<< 3, ((v >>> 5) &&& 0x1f) <<< 3, (v &&& 0x1f) <<< 3,
      if v &&& 0x8000 ≠ 0 then 255 else 0)
  else if format = 1 then
    (((v >>> 11) &&& 0x1f) <<< 3, ((v >>> 5) &&& 0x3f) <<< 2, (v &&& 0x1f) <<< 3, 255)
  else if format = 2 then
    (((v >>> 8) &&& 0x0f) <<< 4, ((v >>> 4) &&& 0x0f) <<< 4, (v &&& 0x0f) <<< 4,
      ((v >>> 12) &&& 0x0f) <<< 4)
  else (255, 255, 255, 255)

/-- Alpha channel of an expanded color. -/
def alphaOf (c : Nat × Nat × Nat × Nat) : Nat := c.2.2.2

/-- C4, counterexample: under format 2 (4444) the source value 0x1000
expands to alpha 16, which is not a multiple of 17 (the 4-bit field is
shifted left by 4, not replicated). -/
theorem decodeColor_4444_alpha_not_mult17 :
    alphaOf (decodeColor 0x1000 2) = 16 ∧ ¬ 17 ∣ alphaOf (decodeColor 0x1000 2) := by
  decide

/-- C4 (amended): for every 16-bit source color, format 1 (565) expands to
alpha exactly 255; format 0 (1555) to alpha exactly 0 or 255; and format 2
(4444) to an alpha confined to the 16 discrete levels that are multiples
of 16 (the 4-bit field shifted left by 4). -/
theorem decodeColor_alpha_laws (v : Nat) (hv : v < 65536) :
    alphaOf (decodeColor v 1) = 255 ∧
    (alphaOf (decodeColor v 0) = 0 ∨ alphaOf (decodeColor v 0) = 255) ∧
    (∃ k, k < 16 ∧ alphaOf (decodeColor v 2) = 16 * k) := by
  refine ⟨by simp [decodeColor, alphaOf], ?_, ?_⟩
  · by_cases h : v &&& 0x8000 ≠ 0
    · right; simp [decodeColor, alphaOf, h]
    · left; simp [decodeColor, alphaOf, h]
  · refine ⟨(v >>> 12) &&& 0x0f, ?_, ?_⟩
    · have : (v >>> 12) &&& 0x0f ≤ 0x0f := Nat.and_le_right
      omega
    · simp [decodeColor, alphaOf, Nat.shiftLeft_eq, Nat.mul_comm]

/-- C4, witness: the alpha laws evaluated at the 16-bit color 0x1234. -/
theorem decodeColor_alpha_laws_witness :
    (0x1234 : Nat) < 65536 ∧
      (alphaOf (decodeColor 0x1234 1) = 255 ∧
        (alphaOf (decodeColor 0x1234 0) = 0 ∨ alphaOf (decodeColor 0x1234 0) = 255) ∧
        (∃ k, k < 16 ∧ alphaOf (decodeColor 0x1234 2) = 16 * k)) :=
  ⟨by decide, decodeColor_alpha_laws 0x1234 (by decide)⟩

/-! ## Morton (twiddled) addressing: `PvrDecoder.untwiddle` -/

/-- The x-contribution of one iteration of the `untwiddle` loop:
`(x & (1 << i)) ? (1 << (2*i+1)) : 0`. -/
def txTerm (x i : Nat) : Nat := if x &&& (1 <<< i) ≠ 0 then 1 <<< (2 * i + 1) else 0

/-- The y-contribution of one iteration of the `untwiddle` loop:
`(y & (1 << i)) ? (1 << (2*i)) : 0`. -/
def tyTerm (y i : Nat) : Nat := if y &&& (1 <<< i) ≠ 0 then 1 <<< (2 * i) else 0

/-- One iteration of the `untwiddle` loop body: `res |= ...; res |= ...`. -/
def untwiddleStep (x y res i : Nat) : Nat := (res ||| txTerm x i) ||| tyTerm y i

/-- The `untwiddle` loop run for `n` iterations (the source runs 10). -/
def untwiddleAux (n x y : Nat) : Nat := (List.range n).foldl (untwiddleStep x y) 0

/-- `PvrDecoder.untwiddle`: interleave the low 10 bits of `x` (odd
destination bits) and `y` (even destination bits). -/
def untwiddle (x y : Nat) : Nat := untwiddleAux 10 x y

/-- Extraction of the odd-position bits (the x coordinate) from an
interleaved value, reading `n` bits. -/
def deinterleaveX : Nat → Nat → Nat
  | 0, _ => 0
  | n + 1, z => (z / 2) % 2 + 2 * deinterleaveX n (z / 4)

/-- Extraction of the even-position bits (the y coordinate) from an
interleaved value, reading `n` bits. -/
def deinterleaveY : Nat → Nat → Nat
  | 0, _ => 0
  | n + 1, z => z % 2 + 2 * deinterleaveY n (z / 4)

theorem and_one_shl_ne (x k : Nat) : x &&& 1 <<< k ≠ 0 ↔ x.testBit k = true := by
  rw [Nat.shiftLeft_eq, one_mul, Nat.and_two_pow]
  by_cases hb : x.testBit k <;> simp [hb]

theorem one_shl_add_two (k : Nat) : 1 <<< (k + 2) = 4 * (1 <<< k) := by
  rw [Nat.shiftLeft_eq, Nat.shiftLeft_eq, one_mul, one_mul, pow_add]
  ring

theorem txTerm_succ (x i : Nat) : txTerm x (i + 1) = 4 * txTerm (x / 2) i := by
  rw [txTerm, txTerm]
  by_cases hb : (x / 2).testBit i
  · rw [if_pos ((and_one_shl_ne x (i + 1)).mpr (by rw [Nat.testBit_add_one]; exact hb)),
      if_pos ((and_one_shl_ne (x / 2) i).mpr hb),
      show 2 * (i + 1) + 1 = (2 * i + 1) + 2 by ring, one_shl_add_two]
  · rw [if_neg (fun hc => hb (by
        have := (and_one_shl_ne x (i + 1)).mp hc
        rwa [Nat.testBit_add_one] at this)),
      if_neg (fun hc => hb ((and_one_shl_ne (x / 2) i).mp hc))]

theorem tyTerm_succ (y i : Nat) : tyTerm y (i + 1) = 4 * tyTerm (y / 2) i := by
  rw [tyTerm, tyTerm]
  by_cases hb : (y / 2).testBit i
  · rw [if_pos ((and_one_shl_ne y (i + 1)).mpr (by rw [Nat.testBit_add_one]; exact hb)),
      if_pos ((and_one_shl_ne (y / 2) i).mpr hb),
      show 2 * (i + 1) = 2 * i + 2 by ring, one_shl_add_two]
  · rw [if_neg (fun hc => hb (by
        have := (and_one_shl_ne y (i + 1)).mp hc
        rwa [Nat.testBit_add_one] at this)),
      if_neg (fun hc => hb ((and_one_shl_ne (y / 2) i).mp hc))]

theorem two_mul_or (a b : Nat) : 2 * (a ||| b) = 2 * a ||| 2 * b := by
  have hd : (2 * a ||| 2 * b) / 2 = a ||| b := by
    rw [Nat.or_div_two]
    congr 1 <;> omega
  have hm : ¬ (2 * a ||| 2 * b) % 2 = 1 := by
    simp only [Nat.or_mod_two_eq_one]
    omega
  omega

theorem mul4_or (a b : Nat) : 4 * (a ||| b) = 4 * a ||| 4 * b := by
  calc 4 * (a ||| b) = 2 * (2 * (a ||| b)) := by ring
    _ = 2 * (2 * a ||| 2 * b) := by rw [two_mul_or]
    _ = 2 * (2 * a) ||| 2 * (2 * b) := two_mul_or _ _
    _ = 4 * a ||| 4 * b := by congr 1 <;> ring

theorem or_small_add (a t : Nat) (ha : a < 4) : a ||| 4 * t = 4 * t + a := by
  have h1 : (a ||| 4 * t) / 2 = a / 2 ||| 2 * t := by
    rw [Nat.or_div_two]
    congr 1
    omega
  have h4 : (a ||| 4 * t) / 2 / 2 = t := by
    rw [h1, Nat.or_div_two]
    have : a / 2 / 2 = 0 := by omega
    rw [this, show 2 * t / 2 = t by omega, Nat.zero_or]
  have h5 : (a ||| 4 * t) % 2 = 1 ↔ a % 2 = 1 := by
    simp only [Nat.or_mod_two_eq_one]
    omega
  have h6 : ((a ||| 4 * t) / 2) % 2 = 1 ↔ (a / 2) % 2 = 1 := by
    rw [h1]
    simp only [Nat.or_mod_two_eq_one]
    omega
  omega

theorem foldl_or_start {f : Nat → Nat → Nat} {t : Nat → Nat}
    (hf : ∀ res i, f res i = res ||| t i) (l : List Nat) :
    ∀ a, l.foldl f a = a ||| l.foldl f 0 := by
  induction l with
  | nil => intro a; simp
  | cons i l ih =>
    intro a
    rw [List.foldl_cons, List.foldl_cons, hf, hf, ih, ih (0 ||| t i), Nat.zero_or,
      Nat.or_assoc]

theorem foldl_or_mul4 {f4 f : Nat → Nat → Nat} {t : Nat → Nat}
    (hf4 : ∀ res i, f4 res i = res ||| 4 * t i) (hf : ∀ res i, f res i = res ||| t i)
    (l : List Nat) : l.foldl f4 0 = 4 * l.foldl f 0 := by
  induction l with
  | nil => simp
  | cons i l ih =>
    rw [List.foldl_cons, List.foldl_cons, hf4, hf, Nat.zero_or, Nat.zero_or,
      foldl_or_start hf4 l, foldl_or_start hf l, ih, ← mul4_or]

theorem untwiddleStep_zero (x y : Nat) : untwiddleStep x y 0 0 = 2 * (x % 2) + y % 2 := by
  rw [untwiddleStep, txTerm, tyTerm]
  have hx : x &&& 1 <<< 0 = x % 2 := by simp [Nat.and_one_is_mod]
  have hy : y &&& 1 <<< 0 = y % 2 := by simp [Nat.and_one_is_mod]
  rw [hx, hy]
  rcases Nat.mod_two_eq_zero_or_one x with h1 | h1 <;>
    rcases Nat.mod_two_eq_zero_or_one y with h2 | h2 <;>
      simp [h1, h2]

/-- The key recursion of the interleave loop: iteration `n + 1` produces
the two low destination bits from `x % 2` and `y % 2` and the remaining
iterations act on `x / 2`, `y / 2` shifted up by two bit positions. -/
theorem untwiddleAux_succ (n x y : Nat) :
    untwiddleAux (n + 1) x y =
      4 * untwiddleAux n (x / 2) (y / 2) + (2 * (x % 2) + y % 2) := by
  have hstep : ∀ res i, untwiddleStep x y res i = res ||| (txTerm x i ||| tyTerm y i) := by
    intro res i
    rw [untwiddleStep, Nat.or_assoc]
  have hstep2 : ∀ res i, untwiddleStep x y res (i + 1) =
      res ||| 4 * (txTerm (x / 2) i ||| tyTerm (y / 2) i) := by
    intro res i
    rw [hstep, txTerm_succ, tyTerm_succ, mul4_or]
  have hstepd : ∀ res i, untwiddleStep (x / 2) (y / 2) res i =
      res ||| (txTerm (x / 2) i ||| tyTerm (y / 2) i) := by
    intro res i
    rw [untwiddleStep, Nat.or_assoc]
  have hbase : untwiddleStep x y 0 0 < 4 := by
    rw [untwiddleStep_zero]
    omega
  calc untwiddleAux (n + 1) x y
      = ((0 : Nat) :: (List.range n).map Nat.succ).foldl (untwiddleStep x y) 0 := by
        rw [untwiddleAux, List.range_succ_eq_map]
    _ = ((List.range n).map Nat.succ).foldl (untwiddleStep x y) (untwiddleStep x y 0 0) := by
        rw [List.foldl_cons]
    _ = (List.range n).foldl (fun res i => untwiddleStep x y res (i + 1))
          (untwiddleStep x y 0 0) := List.foldl_map _ _ _ _
    _ = untwiddleStep x y 0 0 |||
          (List.range n).foldl (fun res i => untwiddleStep x y res (i + 1)) 0 :=
        foldl_or_start hstep2 _ _
    _ = untwiddleStep x y 0 0 ||| 4 * untwiddleAux n (x / 2) (y / 2) := by
        rw [foldl_or_mul4 hstep2 hstepd, untwiddleAux]
    _ = 4 * untwiddleAux n (x / 2) (y / 2) + (2 * (x % 2) + y % 2) := by
        rw [or_small_add _ _ hbase, untwiddleStep_zero]

/-- Bit `i` of `x` lands at destination bit `2*i + 1` (stated using
div/mod arithmetic). -/
theorem untwiddleAux_odd_bit :
    ∀ n i x y, i < n → (untwiddleAux n x y / 2 ^ (2 * i + 1)) % 2 = (x / 2 ^ i) % 2 := by
  intro n
  induction n with
  | zero => omega
  | succ n ih =>
    intro i x y hi
    have hrec := untwiddleAux_succ n x y
    rcases i with _ | i
    · have hx : x % 2 < 2 := Nat.mod_lt _ (by omega)
      have hy : y % 2 < 2 := Nat.mod_lt _ (by omega)
      simp only [Nat.mul_zero, Nat.zero_add, pow_one, pow_zero, Nat.div_one]
      omega
    · have h1 : 2 * (i + 1) + 1 = (2 * i + 1) + 2 := by ring
      have h2 : untwiddleAux (n + 1) x y / 2 ^ ((2 * i + 1) + 2) =
          (untwiddleAux (n + 1) x y / 4) / 2 ^ (2 * i + 1) := by
        rw [Nat.div_div_eq_div_mul, pow_add]
        ring_nf
      have h3 : untwiddleAux (n + 1) x y / 4 = untwiddleAux n (x / 2) (y / 2) := by
        have hx : x % 2 < 2 := Nat.mod_lt _ (by omega)
        have hy : y % 2 < 2 := Nat.mod_lt _ (by omega)
        omega
      rw [h1, h2, h3, ih i (x / 2) (y / 2) (by omega)]
      rw [Nat.div_div_eq_div_mul, ← pow_succ']

/-- Bit `i` of `y` lands at destination bit `2*i` (stated using div/mod
arithmetic). -/
theorem untwiddleAux_even_bit :
    ∀ n i x y, i < n → (untwiddleAux n x y / 2 ^ (2 * i)) % 2 = (y / 2 ^ i) % 2 := by
  intro n
  induction n with
  | zero => omega
  | succ n ih =>
    intro i x y hi
    have hrec := untwiddleAux_succ n x y
    rcases i with _ | i
    · have hx : x % 2 < 2 := Nat.mod_lt _ (by omega)
      have hy : y % 2 < 2 := Nat.mod_lt _ (by omega)
      simp only [Nat.mul_zero, pow_zero, Nat.div_one]
      omega
    · have h1 : 2 * (i + 1) = 2 * i + 2 := by ring
      have h2 : untwiddleAux (n + 1) x y / 2 ^ (2 * i + 2) =
          (untwiddleAux (n + 1) x y / 4) / 2 ^ (2 * i) := by
        rw [Nat.div_div_eq_div_mul, pow_add]
        ring_nf
      have h3 : untwiddleAux (n + 1) x y / 4 = untwiddleAux n (x / 2) (y / 2) := by
        have hx : x % 2 < 2 := Nat.mod_lt _ (by omega)
        have hy : y % 2 < 2 := Nat.mod_lt _ (by omega)
        omega
      rw [h1, h2, h3, ih i (x / 2) (y / 2) (by omega)]
      rw [Nat.div_div_eq_div_mul, ← pow_succ']

/-- Round trip: extracting the interleaved bit positions recovers the
original coordinates whenever they fit in `n` bits. -/
theorem untwiddleAux_roundtrip :
    ∀ n x y, x < 2 ^ n → y < 2 ^ n →
      deinterleaveX n (untwiddleAux n x y) = x ∧
        deinterleaveY n (untwiddleAux n x y) = y := by
  intro n
  induction n with
  | zero =>
    intro x y hx hy
    simp only [pow_zero, Nat.lt_one_iff] at hx hy
    subst hx; subst hy
    exact ⟨rfl, rfl⟩
  | succ n ih =>
    intro x y hx hy
    have hrec := untwiddleAux_succ n x y
    have hx2 : x / 2 < 2 ^ n := by
      rw [pow_succ] at hx
      omega
    have hy2 : y / 2 < 2 ^ n := by
      rw [pow_succ] at hy
      omega
    obtain ⟨ihx, ihy⟩ := ih (x / 2) (y / 2) hx2 hy2
    have hxm : x % 2 < 2 := Nat.mod_lt _ (by omega)
    have hym : y % 2 < 2 := Nat.mod_lt _ (by omega)
    constructor
    · rw [deinterleaveX]
      have hdiv4 : untwiddleAux (n + 1) x y / 4 = untwiddleAux n (x / 2) (y / 2) := by
        omega
      have hd2 : (untwiddleAux (n + 1) x y / 2) % 2 = x % 2 := by omega
      rw [hdiv4, ihx, hd2]
      omega
    · rw [deinterleaveY]
      have hdiv4 : untwiddleAux (n + 1) x y / 4 = untwiddleAux n (x / 2) (y / 2) := by
        omega
      have hm : untwiddleAux (n + 1) x y % 2 = y % 2 := by omega
      rw [hdiv4, ihy, hm]
      omega

/-- C5: the twiddled (Morton) address function is a bijection on
`[0, 1024) × [0, 1024)`: bit `i` of `x` occupies destination bit `2*i+1`
and bit `i` of `y` occupies destination bit `2*i`; extracting those bit
positions back recovers exactly the original pair, and the map is
injective on the domain. -/
theorem untwiddle_interleave_roundtrip (x y : Nat) (hx : x < 1024) (hy : y < 1024) :
    (∀ i, i < 10 →
      (untwiddle x y / 2 ^ (2 * i + 1)) % 2 = (x / 2 ^ i) % 2 ∧
        (untwiddle x y / 2 ^ (2 * i)) % 2 = (y / 2 ^ i) % 2) ∧
    deinterleaveX 10 (untwiddle x y) = x ∧
    deinterleaveY 10 (untwiddle x y) = y ∧
    (∀ x₂ y₂, x₂ < 1024 → y₂ < 1024 → untwiddle x₂ y₂ = untwiddle x y →
      x₂ = x ∧ y₂ = y) := by
  have h1024 : (1024 : Nat) = 2 ^ 10 := by norm_num
  have hrt := untwiddleAux_roundtrip 10 x y (by omega) (by omega)
  refine ⟨?_, hrt.1, hrt.2, ?_⟩
  · intro i hi
    exact ⟨untwiddleAux_odd_bit 10 i x y hi, untwiddleAux_even_bit 10 i x y hi⟩
  · intro x₂ y₂ hx₂ hy₂ heq
    have hrt₂ := untwiddleAux_roundtrip 10 x₂ y₂ (by omega) (by omega)
    have heq2 : untwiddleAux 10 x₂ y₂ = untwiddleAux 10 x y := heq
    constructor
    · rw [← hrt₂.1, ← hrt.1, heq2]
    · rw [← hrt₂.2, ← hrt.2, heq2]

/-- C5, witness: the round trip evaluated at `(3, 5)`. -/
theorem untwiddle_interleave_roundtrip_witness :
    deinterleaveX 10 (untwiddle 3 5) = 3 ∧ deinterleaveY 10 (untwiddle 3 5) = 5 :=
  ⟨(untwiddle_interleave_roundtrip 3 5 (by decide) (by decide)).2.1,
    (untwiddle_interleave_roundtrip 3 5 (by decide) (by decide)).2.2.1⟩

/-! ## Texture decoding pipeline (PvrDecoder.decode) -/

/-- Character codes of the PVRT wrapper tag. -/
def pvrtCodes : List Nat := [80, 86, 82, 84]

/-- Write one expanded pixel into the RGBA output array at byte offset `d`
(out-of-range writes are dropped, as on a JS typed array). -/
def setRGBA (l : List Nat) (d r g b a : Nat) : List Nat :=
  (((l.set d r).set (d + 1) g).set (d + 2) b).set (d + 3) a

/-- `PvrDecoder.decodeRaw`: expand `width*height` 16-bit pixels read at
absolute offset `8 + srcIdx * 2`, where `srcIdx` is the twiddled or linear
source index of destination pixel `(x, y)`. -/
def decodeRaw (buf : Bytes) (w h cf : Nat) (isTwiddled : Bool) : List Nat :=
  (List.range h).foldl (fun acc y =>
    (List.range w).foldl (fun acc x =>
      let srcIdx := if isTwiddled then untwiddle x y else y * w + x
      let color := readUInt16At buf (8 + srcIdx * 2)
      let c := decodeColor color cf
      setRGBA acc ((y * w + x) * 4) c.1 c.2.1 c.2.2.1 c.2.2.2) acc)
    (List.replicate (w * h * 4) 0)

/-- The 256-entry VQ codebook: `k` entries of four sequential 16-bit
colors each, read from `pos`. -/
def readCodebook : Nat → Bytes → Nat → List (List Nat) × Nat
  | 0, _, pos => ([], pos)
  | k + 1, buf, pos =>
    let r1 := readUInt16 buf pos
    let r2 := readUInt16 buf r1.2
    let r3 := readUInt16 buf r2.2
    let r4 := readUInt16 buf r3.2
    let rest := readCodebook k buf r4.2
    ([r1.1, r2.1, r3.1, r4.1] :: rest.1, rest.2)

/-- `PvrDecoder.decodeVQ`: read the 256-entry codebook at `startPos`, then
for each half-resolution block fetch the twiddled 8-bit codebook index and
write the four expanded colors of the selected 2x2 block. The JS loops
`x < width/2` over integer `x` run `ceil(width/2)` times. -/
def decodeVQ (buf : Bytes) (startPos w h cf : Nat) : List Nat :=
  let cb := readCodebook 256 buf startPos
  let dataStart := cb.2
  (List.range ((h + 1) / 2)).foldl (fun acc y =>
    (List.range ((w + 1) / 2)).foldl (fun acc x =>
      let p := seekPos buf ((dataStart + untwiddle x y : Nat) : Int)
      let codeIdx := (readUInt8 buf p).1
      if cb.1.length ≤ codeIdx then acc
      else
        let block := cb.1.getD codeIdx []
        (List.range 4).foldl (fun acc i =>
          let bx := i % 2
          let byDown := i / 2
          let c := decodeColor (block.getD i 0) cf
          setRGBA acc (((y * 2 + byDown) * w + (x * 2 + bx)) * 4)
            c.1 c.2.1 c.2.2.1 c.2.2.2) acc) acc)
    (List.replicate (w * h * 4) 0)

/-- The decoded texture: pixel buffer plus the alpha classification flags
attached to the returned texture object. -/
structure TexImage where
  width : Nat
  height : Nat
  rgba : List Nat
  hasAlpha : Bool
  hasGradientAlpha : Bool
deriving DecidableEq

/-- `PvrDecoder.decode`: sniff the optional `PVRT` wrapper (skip tag and
length on a match, rewind otherwise), read the header (pixel format, data
format, 2 padding bytes, width, height), classify alpha from the pixel
format, and decode the body through the VQ or raw path. The source wraps
the pixel buffer in a renderer texture object; `decodeRaw`/`decodeVQ`
always produce a buffer, so the `null` early-out is unreachable and the
decode is total. -/
def pvrDecode (buf : Bytes) : TexImage :=
  let sigR := readString buf 0 4
  let p0 := if sigR.1 = pvrtCodes then skipPos buf sigR.2 4 else seekPos buf 0
  let cfR := readUInt8 buf p0
  let dfR := readUInt8 buf cfR.2
  let p1 := dfR.2 + 2
  let wR := readUInt16 buf p1
  let hR := readUInt16 buf wR.2
  let cf := cfR.1
  let df := dfR.1
  let hasAlpha := cf == 0 || cf == 2
  let hasGradientAlpha := cf == 2
  let isVQ := df == 0x03 || df == 0x04
  let isTwiddled := df == 0x01 || df == 0x02 || df == 0x03 || df == 0x04 || df == 0x11
  let pixelData :=
    if isVQ then decodeVQ buf hR.2 wR.1 hR.1 cf
    else decodeRaw buf wR.1 hR.1 cf isTwiddled
  { width := wR.1, height := hR.1, rgba := pixelData,
    hasAlpha := hasAlpha, hasGradientAlpha := hasGradientAlpha }

/-- The bare texture payload of the spec example: pixel-format 1 (565),
data-format 9 (linear rectangle), width 2, height 1, pixels 0xF800 and
0x07E0 little endian. -/
def pvrExampleInput : Bytes := [1, 9, 0, 0, 2, 0, 1, 0, 0x00, 0xF8, 0xE0, 0x07]

/-- C1, counterexample: the example payload does not decode to
`[255,0,0,255, 0,255,0,255]` (the 5/6-bit channels are expanded by a pure
left shift, so the maximal channel values are 248 and 252, not 255). -/
theorem pvr_example_decode_ne_spec :
    (pvrDecode pvrExampleInput).rgba ≠ [255, 0, 0, 255, 0, 255, 0, 255] := by decide

/-- C1 (amended): the example payload decodes to
`[248,0,0,255, 0,252,0,255]`: full-intensity red then full-intensity
green under shift expansion, both opaque. -/
theorem pvr_example_decode_rgba :
    (pvrDecode pvrExampleInput).rgba = [248, 0, 0, 255, 0, 252, 0, 255] := by decide

/-- C2 (code bug): decoding is not invariant under the magic-tagged
wrapper. `decode` skips the 8-byte `PVRT` wrapper before reading the
header, but `decodeRaw` reads pixel data at the absolute offset 8, which
inside a wrapped buffer is the header itself, not the pixel data; the
wrapped example decodes to `[8,32,8,255, 0,0,0,255]` instead of
`[248,0,0,255, 0,252,0,255]`. -/
theorem pvr_wrapper_changes_raw_decode :
    pvrDecode ([80, 86, 82, 84, 12, 0, 0, 0] ++ pvrExampleInput) ≠
      pvrDecode pvrExampleInput ∧
    (pvrDecode ([80, 86, 82, 84, 12, 0, 0, 0] ++ pvrExampleInput)).rgba =
      [8, 32, 8, 255, 0, 0, 0, 255] := by decide

/-! ## Polygon command stream (Mt5Loader.readPolygons) -/

theorem byteAt_lt (buf : Bytes) (i : Nat) : byteAt buf i < 256 :=
  Nat.mod_lt _ (by omega)

/-- The high-precision UV scale constant `0.000015258789` of the source,
as the exact value of the decimal literal. -/
def uvHScale : ℚ := 15258789 / 1000000000000

/-- The large-magnitude fallback UV scale constant `0.00000000023283064`
of the source, as the exact value of the decimal literal. -/
def uvFallbackScale : ℚ := 23283064 / 100000000000000000

/-- One UV component before mirror adjustment: high-precision mode scales
by `uvHScale`; standard mode divides by the active divisor unless the raw
magnitude reaches 0xF000, in which case the fallback scale applies. -/
def computeUVComponent (isUVH : Bool) (uvSize : ℚ) (t : Int) : ℚ :=
  if isUVH then (t : ℚ) * uvHScale
  else if t.natAbs < 0xF000 then (t : ℚ) / uvSize
  else (t : ℚ) * uvFallbackScale

/-- The state carried across polygon-stream records. -/
structure PolyState where
  texIdx : Nat
  isUVH : Bool
  uvSize : ℚ
  uMirror : Bool
  vMirror : Bool
deriving DecidableEq

/-- Initial stream state: slot 0, normal UV resolution, divisor 1024, no
mirroring. -/
def polyInit : PolyState := ⟨0, false, 1024, false, false⟩

/-- One decoded strip vertex entry. The color is `[r, g, b, a]` after the
B,G,R,A byte order of the source is rearranged. -/
structure StripVert where
  idx : Int
  u : ℚ
  v : ℚ
  color : List ℚ
deriving DecidableEq

/-- One strip group (all strips of one strip-group record). -/
structure PolyGroup where
  head : Nat
  texId : Nat
  strips : List (List StripVert)
deriving DecidableEq

/-- Relative strip index resolution: non-negative raw indices count from
the mesh's pool base, negative ones from the end of the mesh's local
window (`base + nbVertex + raw`). -/
def resolveIndex (vertexBase nbVertex : Nat) (rawIdx : Int) : Int :=
  if rawIdx < 0 then (vertexBase : Int) + nbVertex + rawIdx
  else (vertexBase : Int) + rawIdx

/-- The per-vertex loop of one strip: raw index, optional UV pair with
mirror adjustment, optional B,G,R,A color normalized to `[0, 1]`. -/
def readStripVerts (buf : Bytes) (vertexBase nbVertex : Nat) (hasUV hasColor : Bool)
    (s : PolyState) : Nat → Nat → List StripVert × Nat
  | 0, pos => ([], pos)
  | k + 1, pos =>
    let ri := readInt16 buf pos
    let idx := resolveIndex vertexBase nbVertex ri.1
    let uvR :=
      if hasUV then
        let tu := readInt16 buf ri.2
        let tv := readInt16 buf tu.2
        let u0 := computeUVComponent s.isUVH s.uvSize tu.1
        let v0 := computeUVComponent s.isUVH s.uvSize tv.1
        let u1 := if s.uMirror ∧ 1 < |u0| then u0 / 2 else u0
        let v1 := if s.vMirror ∧ 1 < |v0| then v0 / 2 else v0
        (u1, v1, tv.2)
      else ((0 : ℚ), (0 : ℚ), ri.2)
    let colR :=
      if hasColor then
        let b := readUInt8 buf uvR.2.2
        let g := readUInt8 buf b.2
        let r := readUInt8 buf g.2
        let a := readUInt8 buf r.2
        ([(r.1 : ℚ) / 255, (g.1 : ℚ) / 255, (b.1 : ℚ) / 255, (a.1 : ℚ) / 255], a.2)
      else (([1, 1, 1, 1] : List ℚ), uvR.2.2)
    let rest := readStripVerts buf vertexBase nbVertex hasUV hasColor s k colR.2
    (⟨idx, uvR.1, uvR.2.1, colR.1⟩ :: rest.1, rest.2)

/-- The strip loop of one strip-group record: a signed 16-bit length whose
absolute value is the vertex count, then that many vertex entries. -/
def readStrips (buf : Bytes) (vertexBase nbVertex : Nat) (hasUV hasColor : Bool)
    (s : PolyState) : Nat → Nat → List (List StripVert) × Nat
  | 0, pos => ([], pos)
  | i + 1, pos =>
    let sl := readInt16 buf pos
    let sv := readStripVerts buf vertexBase nbVertex hasUV hasColor s sl.1.natAbs sl.2
    let rest := readStrips buf vertexBase nbVertex hasUV hasColor s i sv.2
    (sv.1 :: rest.1, rest.2)

/-- `Mt5Loader.readPolygons`: dispatch loop over 16-bit opcodes. The first
`Nat` argument is the number of loop iterations still allowed (the source
caps the loop at 10000 iterations); the loop also stops when fewer than
3 bytes remain, at the 0x8000 end marker, and at any unrecognized opcode. -/
def readPolygonsAux (buf : Bytes) (vertexBase nbVertex : Nat) :
    Nat → Nat → PolyState → List PolyGroup → List PolyGroup × Nat
  | 0, pos, _, acc => (acc, pos)
  | n + 1, pos, s, acc =>
    if pos + 2 < buf.length then
      let tr := readUInt16 buf pos
      let ty := tr.1
      let p1 := tr.2
      if ty = 0x8000 then (acc, p1)
      else if ty = 0x0000 ∨ ty = 0xFFFF then
        readPolygonsAux buf vertexBase nbVertex n p1 s acc
      else if 0x0002 ≤ ty ∧ ty ≤ 0x0007 then
        let szR := readUInt16 buf p1
        let dataR := readBytes buf szR.2 szR.1
        let data := dataR.1
        let s1 := if 1 ≤ data.length then { s with isUVH := data.getD 0 0 &&& 1 = 1 } else s
        let s2 :=
          if 11 ≤ data.length then
            { s1 with uMirror := data.getD 10 0 &&& 4 = 4,
                      vMirror := data.getD 10 0 &&& 2 = 2 }
          else s1
        readPolygonsAux buf vertexBase nbVertex n dataR.2 s2 acc
      else if ty = 0x0009 then
        let tR := readUInt16 buf p1
        readPolygonsAux buf vertexBase nbVertex n tR.2 { s with texIdx := tR.1 } acc
      else if ty = 0x000B then
        let vR := readUInt16 buf p1
        let s1 := if vR.1 ≠ 0 then { s with uvSize := (vR.1 : ℚ) } else s
        readPolygonsAux buf vertexBase nbVertex n vR.2 s1 acc
      else if ty = 0x0008 ∨ ty = 0x000A then
        readPolygonsAux buf vertexBase nbVertex n (skipPos buf p1 2) s acc
      else if ty = 0x000E ∨ ty = 0x000F then
        readPolygonsAux buf vertexBase nbVertex n (skipPos buf p1 10) s acc
      else if 0x10 ≤ ty ∧ ty ≤ 0x1F then
        let unkR := readUInt16 buf p1
        let nsR := readUInt16 buf unkR.2
        let hasUV := ty == 0x11 || ty == 0x14 || ty == 0x19 || ty == 0x1C
        let hasColor := ty == 0x12 || ty == 0x14 || ty == 0x1A || ty == 0x1C
        let st := readStrips buf vertexBase nbVertex hasUV hasColor s nsR.1 nsR.2
        let poly : PolyGroup := { head := ty, texId := s.texIdx, strips := st.1 }
        readPolygonsAux buf vertexBase nbVertex n st.2 s (acc ++ [poly])
      else (acc, p1)
    else (acc, pos)

/-- `Mt5Loader.readPolygons` entry point: iteration budget 10000, initial
state, empty accumulator. -/
def readPolygons (buf : Bytes) (pos vertexBase nbVertex : Nat) : List PolyGroup × Nat :=
  readPolygonsAux buf vertexBase nbVertex 10000 pos polyInit []

/-- The opcodes handled by some branch of the dispatch loop. -/
def recognizedOpcode (ty : Nat) : Bool :=
  ty == 0x8000 || ty == 0x0000 || ty == 0xFFFF ||
    (decide (0x0002 ≤ ty) && decide (ty ≤ 0x0007)) || ty == 0x0008 || ty == 0x0009 ||
    ty == 0x000A || ty == 0x000B || ty == 0x000E || ty == 0x000F ||
    (decide (0x10 ≤ ty) && decide (ty ≤ 0x1F))

/-- C7: strip vertex indices resolve relative to the mesh's window in the
global pool: non-negative raw index `r` resolves to `base + r`, negative
`r` to `base + N + r`, and in particular `-1` to `base + N - 1`. -/
theorem resolveIndex_relative_window (vertexBase nbVertex : Nat) (rawIdx : Int) :
    (0 ≤ rawIdx → resolveIndex vertexBase nbVertex rawIdx = (vertexBase : Int) + rawIdx) ∧
    (rawIdx < 0 →
      resolveIndex vertexBase nbVertex rawIdx = (vertexBase : Int) + nbVertex + rawIdx) ∧
    resolveIndex vertexBase nbVertex (-1) = (vertexBase : Int) + nbVertex - 1 := by
  refine ⟨?_, ?_, ?_⟩
  · intro h
    rw [resolveIndex, if_neg (by omega)]
  · intro h
    rw [resolveIndex, if_pos h]
  · rw [resolveIndex, if_pos (by norm_num)]
    ring

/-- C7, witness: `-1` in a mesh of 4 local vertices with pool base 10
resolves to 13; raw index 2 resolves to 12. -/
theorem resolveIndex_relative_window_witness :
    resolveIndex 10 4 (-1) = 13 ∧ resolveIndex 10 4 2 = 12 := by
  constructor
  · rw [(resolveIndex_relative_window 10 4 (-1)).2.2]
    norm_num
  · rw [(resolveIndex_relative_window 10 4 2).1 (by norm_num)]
    norm_num

/-- C8: an opcode outside the recognized set stops the polygon stream of
the current mesh immediately: the loop returns exactly the strip groups
accumulated so far (with the cursor just past the offending opcode),
whatever iteration budget remains. The loop is a pure function of the
mesh's own arguments, so no state of any other mesh's decode is touched. -/
theorem readPolygons_unknown_opcode_stops (buf : Bytes) (vertexBase nbVertex n pos : Nat)
    (s : PolyState) (acc : List PolyGroup)
    (hguard : pos + 2 < buf.length)
    (hunk : recognizedOpcode (readUInt16 buf pos).1 = false) :
    readPolygonsAux buf vertexBase nbVertex (n + 1) pos s acc =
      (acc, (readUInt16 buf pos).2) := by
  have hno : ¬((readUInt16 buf pos).1 = 0x8000) ∧
      ¬((readUInt16 buf pos).1 = 0x0000 ∨ (readUInt16 buf pos).1 = 0xFFFF) ∧
      ¬(0x0002 ≤ (readUInt16 buf pos).1 ∧ (readUInt16 buf pos).1 ≤ 0x0007) ∧
      ¬((readUInt16 buf pos).1 = 0x0009) ∧
      ¬((readUInt16 buf pos).1 = 0x000B) ∧
      ¬((readUInt16 buf pos).1 = 0x0008 ∨ (readUInt16 buf pos).1 = 0x000A) ∧
      ¬((readUInt16 buf pos).1 = 0x000E ∨ (readUInt16 buf pos).1 = 0x000F) ∧
      ¬(0x10 ≤ (readUInt16 buf pos).1 ∧ (readUInt16 buf pos).1 ≤ 0x1F) := by
    have hb := hunk
    simp only [recognizedOpcode, Bool.or_eq_false_iff, beq_eq_false_iff_ne, ne_eq,
      Bool.and_eq_false_iff, decide_eq_false_iff_not, not_le] at hb
    omega
  obtain ⟨h1, h2, h3, h4, h5, h6, h7, h8⟩ := hno
  simp only [readPolygonsAux]
  rw [if_pos hguard, if_neg h1, if_neg h2, if_neg h3, if_neg h4, if_neg h5, if_neg h6,
    if_neg h7, if_neg h8]

/-- C8, witness: a stream whose first opcode is the unrecognized 0x0020
returns the empty accumulator with the cursor at offset 2. -/
theorem readPolygons_unknown_opcode_stops_witness :
    readPolygonsAux [0x20, 0x00, 0, 0, 0] 0 0 10000 0 polyInit [] = ([], 2) :=
  readPolygons_unknown_opcode_stops [0x20, 0x00, 0, 0, 0] 0 0 9999 0 polyInit []
    (by decide) (by decide)

/-- C10: in standard (non-high-precision) UV mode the large-magnitude
fallback branch is unreachable: every raw UV component produced by the
signed 16-bit read has absolute value at most 32768, strictly below the
0xF000 threshold, so the component before mirror adjustment is always the
raw value divided by the active UV divisor. -/
theorem uv_fallback_unreachable (buf : Bytes) (pos : Nat) (d : ℚ) :
    (readInt16 buf pos).1.natAbs ≤ 32768 ∧
    (readInt16 buf pos).1.natAbs < 0xF000 ∧
    computeUVComponent false d (readInt16 buf pos).1 = ((readInt16 buf pos).1 : ℚ) / d := by
  have hb : (readInt16 buf pos).1.natAbs ≤ 32768 := by
    rw [readInt16]
    by_cases h : canRead buf pos 2
    · rw [if_pos h]
      have h1 : byteAt buf pos < 256 := byteAt_lt buf pos
      have h2 : byteAt buf (pos + 1) < 256 := byteAt_lt buf (pos + 1)
      rw [toInt16]
      split <;> omega
    · rw [if_neg h]
      simp
  refine ⟨hb, by omega, ?_⟩
  rw [computeUVComponent, if_neg (by simp), if_pos (by omega)]

/-! ## Model and node records (Mt5Loader.readModel / readNode) -/

/-- One vertex of the global pool; positions and normals are raw float32
patterns (3 + 3 components). -/
structure Vtx where
  px : Nat
  py : Nat
  pz : Nat
  nx : Nat
  ny : Nat
  nz : Nat
deriving DecidableEq

/-- JS float negation on the raw pattern: flip the sign bit (bit-exact
IEEE-754 negation, `-0.0` included). -/
def floatNeg (v : Nat) : Nat := v ^^^ 0x80000000

/-- The loader state shared across meshes of one decode pass: the global
vertex pool and the running pool offset. -/
structure LoaderState where
  globalVertices : List Vtx
  vertexOffset : Nat
deriving DecidableEq

/-- The vertex loop of `readModel`: up to `count` fixed 24-byte records,
stopping early when fewer than 24 bytes remain. -/
def readVerticesAux (buf : Bytes) : Nat → Nat → List Vtx → List Vtx × Nat
  | 0, pos, acc => (acc, pos)
  | k + 1, pos, acc =>
    if canRead buf pos 24 then
      let x := readFloat32 buf pos
      let y := readFloat32 buf x.2
      let z := readFloat32 buf y.2
      let nx := readFloat32 buf z.2
      let ny := readFloat32 buf nx.2
      let nz := readFloat32 buf ny.2
      readVerticesAux buf k nz.2
        (acc ++ [⟨floatNeg x.1, y.1, z.1, floatNeg nx.1, ny.1, nz.1⟩])
    else (acc, pos)

/-- One mesh record (`readModel`). Center and radius stay raw float32
patterns; `vertexBase` is the pool offset at header-read time. A mesh with
no polygon block keeps an empty `polygons` list (the source leaves the
field unset, which downstream treats the same as empty). -/
structure Mt5Model where
  flag : Nat
  vertexAddr : Nat
  nbVertex : Nat
  polygonAddr : Nat
  centerX : Nat
  centerY : Nat
  centerZ : Nat
  radius : Nat
  vertexBase : Nat
  polygons : List PolyGroup
deriving DecidableEq

/-- `Mt5Loader.readModel`: fixed 32-byte header, then the vertex pool
(appended to the global pool; the running offset advances by the declared
count even when the read is truncated) and the polygon stream, each behind
a save/seek/restore of the cursor. Returns the model, the cursor position
after the header, and the updated state. -/
def readModel (buf : Bytes) (pos : Nat) (st : LoaderState) :
    Mt5Model × Nat × LoaderState :=
  let flagR := readUInt32 buf pos
  let vaR := readUInt32 buf flagR.2
  let nvR := readUInt32 buf vaR.2
  let paR := readUInt32 buf nvR.2
  let cxR := readFloat32 buf paR.2
  let cyR := readFloat32 buf cxR.2
  let czR := readFloat32 buf cyR.2
  let rdR := readFloat32 buf czR.2
  let vertexBase := st.vertexOffset
  let st1 :=
    if vaR.1 ≠ 0 ∧ vaR.1 < buf.length then
      let vs := readVerticesAux buf nvR.1 (seekPos buf (vaR.1 : Int)) []
      { globalVertices := st.globalVertices ++ vs.1,
        vertexOffset := st.vertexOffset + nvR.1 }
    else st
  let polys :=
    if paR.1 ≠ 0 ∧ paR.1 < buf.length then
      (readPolygons buf (seekPos buf (paR.1 : Int)) vertexBase nvR.1).1
    else []
  ({ flag := flagR.1, vertexAddr := vaR.1, nbVertex := nvR.1, polygonAddr := paR.1,
     centerX := cxR.1, centerY := cyR.1, centerZ := czR.1, radius := rdR.1,
     vertexBase := vertexBase, polygons := polys }, rdR.2, st1)

/-- One node of the hierarchy, identified by its byte offset (`addr`).
Rotations keep the raw signed fixed-point values (the source converts them
to radians, a real-valued scaling, when storing the node); scale and
position keep raw float32 patterns. -/
structure Mt5Node where
  addr : Nat
  flag : Nat
  modelAddr : Nat
  rotX : Int
  rotY : Int
  rotZ : Int
  sclX : Nat
  sclY : Nat
  sclZ : Nat
  posX : Nat
  posY : Nat
  posZ : Nat
  child : Nat
  sibling : Nat
  parentAddr : Nat
  unk1 : Nat
  unk2 : Nat
  model : Option Mt5Model
deriving DecidableEq

/-- The fixed 64-byte node record of `readNode` (16 sequential reads),
the optional mesh decode behind a save/seek/restore, and the assembled
node. Returns the node, the cursor after the record, and the state. -/
def readNodeRecord (buf : Bytes) (pos : Nat) (st : LoaderState) :
    Mt5Node × Nat × LoaderState :=
  let flagR := readUInt32 buf pos
  let maR := readUInt32 buf flagR.2
  let rxR := readInt32 buf maR.2
  let ryR := readInt32 buf rxR.2
  let rzR := readInt32 buf ryR.2
  let sxR := readFloat32 buf rzR.2
  let syR := readFloat32 buf sxR.2
  let szR := readFloat32 buf syR.2
  let pxR := readFloat32 buf szR.2
  let pyR := readFloat32 buf pxR.2
  let pzR := readFloat32 buf pyR.2
  let chR := readUInt32 buf pzR.2
  let sbR := readUInt32 buf chR.2
  let paR := readUInt32 buf sbR.2
  let u1R := readUInt32 buf paR.2
  let u2R := readUInt32 buf u1R.2
  let mdl :=
    if maR.1 ≠ 0 ∧ maR.1 < buf.length then
      let m := readModel buf (seekPos buf (maR.1 : Int)) st
      (some m.1, m.2.2)
    else (none, st)
  ({ addr := pos, flag := flagR.1, modelAddr := maR.1,
     rotX := rxR.1, rotY := ryR.1, rotZ := rzR.1,
     sclX := sxR.1, sclY := syR.1, sclZ := szR.1,
     posX := pxR.1, posY := pyR.1, posZ := pzR.1,
     child := chR.1, sibling := sbR.1, parentAddr := paR.1,
     unk1 := u1R.1, unk2 := u2R.1, model := mdl.1 }, u2R.2, mdl.2)

/-- `Mt5Loader.readNode`, with an explicit recursion budget (`none` when
it runs out; any budget larger than the number of distinct in-bounds
offsets is sufficient, see `readNodeF_some`). Entry checks: at least 64
readable bytes, and the offset not already in the decoded node list. After
the record, recurse into the child offset and then the sibling offset when
they are non-zero and in bounds. -/
def readNodeF (buf : Bytes) : Nat → Nat → LoaderState → List Mt5Node →
    Option (List Mt5Node × Nat × LoaderState)
  | 0, _, _, _ => none
  | fuel + 1, pos, st, nodes =>
    if canRead buf pos 64 = false then some (nodes, pos, st)
    else if nodes.any (fun n => n.addr == pos) then some (nodes, pos, st)
    else
      let rec1 := readNodeRecord buf pos st
      let node := rec1.1
      let nodes1 := nodes ++ [node]
      (if node.child ≠ 0 ∧ node.child < buf.length then
          readNodeF buf fuel (seekPos buf (node.child : Int)) rec1.2.2 nodes1
        else some (nodes1, rec1.2.1, rec1.2.2)).bind fun r1 =>
        if node.sibling ≠ 0 ∧ node.sibling < buf.length then
          readNodeF buf fuel (seekPos buf (node.sibling : Int)) r1.2.2 r1.1
        else some r1

/-- The byte offsets of the decoded node list. -/
def nodeAddrs (nodes : List Mt5Node) : List Nat := nodes.map Mt5Node.addr

/-- Well-formed visited list: offsets are pairwise distinct and in bounds. -/
def wfNodes (size : Nat) (nodes : List Mt5Node) : Prop :=
  (nodeAddrs nodes).Nodup ∧ ∀ n ∈ nodes, n.addr < size

theorem readNodeRecord_addr (buf : Bytes) (pos : Nat) (st : LoaderState) :
    (readNodeRecord buf pos st).1.addr = pos := rfl

theorem readNodeF_visited (buf : Bytes) (fuel pos : Nat) (st : LoaderState)
    (nodes : List Mt5Node) (hcan : canRead buf pos 64 = true)
    (hvis : nodes.any (fun n => n.addr == pos) = true) :
    readNodeF buf (fuel + 1) pos st nodes = some (nodes, pos, st) := by
  simp only [readNodeF]
  rw [if_neg (by rw [hcan]; exact Bool.noConfusion), if_pos hvis]

/-- The traversal only appends to the decoded node list. -/
theorem readNodeF_extends (buf : Bytes) : ∀ fuel pos st nodes out,
    readNodeF buf fuel pos st nodes = some out → ∃ t, out.1 = nodes ++ t := by
  intro fuel
  induction fuel with
  | zero =>
    intro pos st nodes out h
    simp [readNodeF] at h
  | succ fuel ih =>
    intro pos st nodes out h
    simp only [readNodeF] at h
    by_cases h0 : canRead buf pos 64 = false
    · rw [if_pos h0] at h
      cases h
      exact ⟨[], by simp⟩
    · rw [if_neg h0] at h
      by_cases h1 : nodes.any (fun n => n.addr == pos) = true
      · rw [if_pos h1] at h
        cases h
        exact ⟨[], by simp⟩
      · rw [if_neg h1] at h
        obtain ⟨r1, hr1, hr2⟩ := Option.bind_eq_some.mp h
        have hx1 : ∃ t1, r1.1 = nodes ++ [(readNodeRecord buf pos st).1] ++ t1 := by
          by_cases hc : (readNodeRecord buf pos st).1.child ≠ 0 ∧
              (readNodeRecord buf pos st).1.child < buf.length
          · rw [if_pos hc] at hr1
            obtain ⟨t1, ht1⟩ := ih _ _ _ _ hr1
            exact ⟨t1, by rw [ht1, List.append_assoc]⟩
          · rw [if_neg hc] at hr1
            cases hr1
            exact ⟨[], by simp⟩
        obtain ⟨t1, ht1⟩ := hx1
        by_cases hs : (readNodeRecord buf pos st).1.sibling ≠ 0 ∧
            (readNodeRecord buf pos st).1.sibling < buf.length
        · rw [if_pos hs] at hr2
          obtain ⟨t2, ht2⟩ := ih _ _ _ _ hr2
          refine ⟨[(readNodeRecord buf pos st).1] ++ t1 ++ t2, ?_⟩
          rw [ht2, ht1]
          simp
        · rw [if_neg hs] at hr2
          cases hr2
          exact ⟨[(readNodeRecord buf pos st).1] ++ t1, by rw [ht1]; simp⟩

/-- The traversal preserves well-formedness of the visited list: each
pushed node sits at a fresh, in-bounds offset. -/
theorem readNodeF_wf (buf : Bytes) : ∀ fuel pos st nodes out,
    readNodeF buf fuel pos st nodes = some out →
    wfNodes buf.length nodes → wfNodes buf.length out.1 := by
  intro fuel
  induction fuel with
  | zero =>
    intro pos st nodes out h
    simp [readNodeF] at h
  | succ fuel ih =>
    intro pos st nodes out h hwf
    simp only [readNodeF] at h
    by_cases h0 : canRead buf pos 64 = false
    · rw [if_pos h0] at h
      cases h
      exact hwf
    · rw [if_neg h0] at h
      by_cases h1 : nodes.any (fun n => n.addr == pos) = true
      · rw [if_pos h1] at h
        cases h
        exact hwf
      · rw [if_neg h1] at h
        have hcr : canRead buf pos 64 = true := by
          cases hb : canRead buf pos 64
          · exact absurd hb h0
          · rfl
        have hposlt : pos < buf.length := by
          have := of_decide_eq_true hcr
          omega
        have hfresh : ∀ n ∈ nodes, n.addr ≠ pos := by
          intro n hn
          have h1f : nodes.any (fun n => n.addr == pos) = false := Bool.eq_false_iff.mpr h1
          have := List.any_eq_false.mp h1f n hn
          simpa using this
        have hwf1 : wfNodes buf.length (nodes ++ [(readNodeRecord buf pos st).1]) := by
          obtain ⟨hnd, hlt⟩ := hwf
          constructor
          · rw [nodeAddrs, List.map_append, List.nodup_append]
            refine ⟨hnd, by simp, ?_⟩
            intro a ha hb
            simp only [List.map_cons, List.map_nil, List.mem_singleton,
              readNodeRecord_addr] at hb
            obtain ⟨n, hn, rfl⟩ := List.mem_map.mp ha
            exact hfresh n hn (by rw [hb])
          · intro n hn
            rcases List.mem_append.mp hn with hmem | hmem
            · exact hlt n hmem
            · simp only [List.mem_singleton] at hmem
              rw [hmem, readNodeRecord_addr]
              exact hposlt
        obtain ⟨r1, hr1, hr2⟩ := Option.bind_eq_some.mp h
        have hwfr1 : wfNodes buf.length r1.1 := by
          by_cases hc : (readNodeRecord buf pos st).1.child ≠ 0 ∧
              (readNodeRecord buf pos st).1.child < buf.length
          · rw [if_pos hc] at hr1
            exact ih _ _ _ _ hr1 hwf1
          · rw [if_neg hc] at hr1
            cases hr1
            exact hwf1
        by_cases hs : (readNodeRecord buf pos st).1.sibling ≠ 0 ∧
            (readNodeRecord buf pos st).1.sibling < buf.length
        · rw [if_pos hs] at hr2
          exact ih _ _ _ _ hr2 hwfr1
        · rw [if_neg hs] at hr2
          cases hr2
          exact hwfr1

/-- A well-formed visited list cannot hold more nodes than there are
distinct in-bounds offsets. -/
theorem wfNodes_length_le (size : Nat) (nodes : List Mt5Node)
    (hwf : wfNodes size nodes) : nodes.length ≤ size := by
  obtain ⟨hnd, hlt⟩ := hwf
  have h1 : (nodeAddrs nodes).toFinset.card = (nodeAddrs nodes).length :=
    List.toFinset_card_of_nodup hnd
  have h2 : (nodeAddrs nodes).toFinset ⊆ Finset.range size := by
    intro a ha
    rw [List.mem_toFinset] at ha
    obtain ⟨n, hn, rfl⟩ := List.mem_map.mp ha
    exact Finset.mem_range.mpr (hlt n hn)
  have h3 := Finset.card_le_card h2
  rw [Finset.card_range, h1] at h3
  calc nodes.length = (nodeAddrs nodes).length := (List.length_map _ _).symm
    _ ≤ size := h3

/-- Termination: any budget exceeding the number of offsets still
available succeeds (never returns `none`). -/
theorem readNodeF_some (buf : Bytes) : ∀ fuel pos st nodes,
    wfNodes buf.length nodes → buf.length + 1 ≤ fuel + nodes.length →
    ∃ out, readNodeF buf fuel pos st nodes = some out := by
  intro fuel
  induction fuel with
  | zero =>
    intro pos st nodes hwf hfuel
    have := wfNodes_length_le buf.length nodes hwf
    omega
  | succ fuel ih =>
    intro pos st nodes hwf hfuel
    by_cases h0 : canRead buf pos 64 = false
    · exact ⟨(nodes, pos, st), by simp only [readNodeF]; rw [if_pos h0]⟩
    · by_cases h1 : nodes.any (fun n => n.addr == pos) = true
      · have hcr : canRead buf pos 64 = true := by
          cases hb : canRead buf pos 64
          · exact absurd hb h0
          · rfl
        exact ⟨(nodes, pos, st), readNodeF_visited buf fuel pos st nodes hcr h1⟩
      · have hcr : canRead buf pos 64 = true := by
          cases hb : canRead buf pos 64
          · exact absurd hb h0
          · rfl
        have hposlt : pos < buf.length := by
          have := of_decide_eq_true hcr
          omega
        have hfresh : ∀ n ∈ nodes, n.addr ≠ pos := by
          intro n hn
          have h1f : nodes.any (fun n => n.addr == pos) = false := Bool.eq_false_iff.mpr h1
          have := List.any_eq_false.mp h1f n hn
          simpa using this
        have hwf1 : wfNodes buf.length (nodes ++ [(readNodeRecord buf pos st).1]) := by
          obtain ⟨hnd, hlt⟩ := hwf
          constructor
          · rw [nodeAddrs, List.map_append, List.nodup_append]
            refine ⟨hnd, by simp, ?_⟩
            intro a ha hb
            simp only [List.map_cons, List.map_nil, List.mem_singleton,
              readNodeRecord_addr] at hb
            obtain ⟨n, hn, rfl⟩ := List.mem_map.mp ha
            exact hfresh n hn (by rw [hb])
          · intro n hn
            rcases List.mem_append.mp hn with hmem | hmem
            · exact hlt n hmem
            · simp only [List.mem_singleton] at hmem
              rw [hmem, readNodeRecord_addr]
              exact hposlt
        have hlen1 : (nodes ++ [(readNodeRecord buf pos st).1]).length = nodes.length + 1 := by
          simp
        have hchild : ∃ r1,
            (if (readNodeRecord buf pos st).1.child ≠ 0 ∧
                (readNodeRecord buf pos st).1.child < buf.length then
              readNodeF buf fuel (seekPos buf ((readNodeRecord buf pos st).1.child : Int))
                (readNodeRecord buf pos st).2.2
                (nodes ++ [(readNodeRecord buf pos st).1])
            else some (nodes ++ [(readNodeRecord buf pos st).1],
              (readNodeRecord buf pos st).2.1, (readNodeRecord buf pos st).2.2)) = some r1 := by
          by_cases hc : (readNodeRecord buf pos st).1.child ≠ 0 ∧
              (readNodeRecord buf pos st).1.child < buf.length
          · rw [if_pos hc]
            exact ih _ _ _ hwf1 (by omega)
          · rw [if_neg hc]
            exact ⟨_, rfl⟩
        obtain ⟨r1, hr1⟩ := hchild
        have hwfr1 : wfNodes buf.length r1.1 := by
          by_cases hc : (readNodeRecord buf pos st).1.child ≠ 0 ∧
              (readNodeRecord buf pos st).1.child < buf.length
          · rw [if_pos hc] at hr1
            exact readNodeF_wf buf fuel _ _ _ _ hr1 hwf1
          · rw [if_neg hc] at hr1
            cases hr1
            exact hwf1
        have hlenr1 : nodes.length + 1 ≤ r1.1.length := by
          by_cases hc : (readNodeRecord buf pos st).1.child ≠ 0 ∧
              (readNodeRecord buf pos st).1.child < buf.length
          · rw [if_pos hc] at hr1
            obtain ⟨t, ht⟩ := readNodeF_extends buf fuel _ _ _ _ hr1
            rw [ht]
            simp
          · rw [if_neg hc] at hr1
            cases hr1
            simp
        have hsib : ∃ out,
            (if (readNodeRecord buf pos st).1.sibling ≠ 0 ∧
                (readNodeRecord buf pos st).1.sibling < buf.length then
              readNodeF buf fuel (seekPos buf ((readNodeRecord buf pos st).1.sibling : Int))
                r1.2.2 r1.1
            else some r1) = some out := by
          by_cases hs : (readNodeRecord buf pos st).1.sibling ≠ 0 ∧
              (readNodeRecord buf pos st).1.sibling < buf.length
          · rw [if_pos hs]
            exact ih _ _ _ hwfr1 (by omega)
          · rw [if_neg hs]
            exact ⟨_, rfl⟩
        obtain ⟨out, hout⟩ := hsib
        refine ⟨out, ?_⟩
        simp only [readNodeF]
        rw [if_neg h0, if_neg h1, hr1]
        exact hout

/-- C6: for every model buffer and start offset, the node traversal with a
budget exceeding the buffer size terminates with a decoded node list whose
byte offsets are pairwise distinct (at most one node per offset), and a
visit to an offset already in the decoded list is a no-op: it returns the
list, cursor and state unchanged. -/
theorem readNode_visited_once_and_terminates (buf : Bytes) (pos : Nat) (st : LoaderState) :
    (∃ out, readNodeF buf (buf.length + 1) pos st [] = some out ∧
      (nodeAddrs out.1).Nodup) ∧
    (∀ fuel pos₂ st₂ nodes, canRead buf pos₂ 64 = true →
      nodes.any (fun n => n.addr == pos₂) = true →
      readNodeF buf (fuel + 1) pos₂ st₂ nodes = some (nodes, pos₂, st₂)) := by
  constructor
  · have hwf0 : wfNodes buf.length [] := ⟨List.nodup_nil, by simp⟩
    obtain ⟨out, hout⟩ := readNodeF_some buf (buf.length + 1) pos st [] hwf0 (by simp)
    exact ⟨out, hout, (readNodeF_wf buf _ _ _ _ _ hout hwf0).1⟩
  · intro fuel pos₂ st₂ nodes hcan hvis
    exact readNodeF_visited buf fuel pos₂ st₂ nodes hcan hvis

/-- A concrete node literal for the C6 witness: the all-zero node record. -/
def nodeW : Mt5Node :=
  { addr := 0, flag := 0, modelAddr := 0, rotX := 0, rotY := 0, rotZ := 0,
    sclX := 0, sclY := 0, sclZ := 0, posX := 0, posY := 0, posZ := 0,
    child := 0, sibling := 0, parentAddr := 0, unk1 := 0, unk2 := 0, model := none }

/-- C6, witness: on a 64-byte buffer, revisiting offset 0 with that offset
already decoded returns the node list unchanged. -/
theorem readNode_visited_once_and_terminates_witness :
    readNodeF (List.replicate 64 0) 6 0 ⟨[], 0⟩ [nodeW] = some ([nodeW], 0, ⟨[], 0⟩) :=
  (readNode_visited_once_and_terminates (List.replicate 64 0) 0 ⟨[], 0⟩).2 5 0 ⟨[], 0⟩
    [nodeW] (by decide) (by decide)

/-! ## Texture directory and external resolution (Mt5Loader.readTextures) -/

/-- Character codes of the TEXD directory tag. -/
def texdCodes : List Nat := [84, 69, 88, 68]

/-- Character codes of the TEXN embedded-texture tag. -/
def texnCodes : List Nat := [84, 69, 88, 78]

/-- Character codes of the NAME external-reference tag. -/
def nameCodes : List Nat := [78, 65, 77, 69]

/-- The texture slot map (`this.textureCache`): most recent binding first,
lookup by slot ordinal. -/
abbrev TexCache := List (Nat × TexImage)

/-- `Map.get`-style lookup of a slot. -/
def cacheGet (c : TexCache) (k : Nat) : Option TexImage := List.lookup k c

/-- `Map.has`. -/
def cacheHas (c : TexCache) (k : Nat) : Bool := (cacheGet c k).isSome

/-- `Map.set` (overwriting): the new binding shadows any previous one. -/
def cacheSet (c : TexCache) (k : Nat) (v : TexImage) : TexCache := (k, v) :: c

/-- The TEXN inner scan for the nested `PVRT` tag: read 4 characters, and
on a mismatch step back 3 bytes (net forward progress of one byte); stop
at `nodeEnd - 4`. Returns the position after the matched tag. The first
argument is a recursion budget: a terminating run of the source loop makes
net progress every iteration, so a budget of `nodeEnd` covers every
position the loop can start from; a crafted buffer that makes the source
loop forever is cut off and treated as not-found. -/
def scanPVRT (buf : Bytes) (nodeEnd : Nat) : Nat → Nat → Option Nat
  | 0, _ => none
  | fuel + 1, pos =>
    if pos + 4 < nodeEnd then
      let sR := readString buf pos 4
      if sR.1 = pvrtCodes then some sR.2
      else scanPVRT buf nodeEnd fuel (skipPos buf sR.2 (-3))
    else none

/-- The NAME entry loop: `numEntries` 8-byte identifiers; slots already
bound are skipped in a skip-existing pass, the rest are queued as pending
requests; the loop breaks once the slot counter reaches the expected
texture count. Returns cursor, counter and request list. -/
def nameEntries (buf : Bytes) (nbTex : Nat) (skipExisting : Bool) (cache : TexCache) :
    Nat → Nat → Nat → List (Nat × List Nat) → Nat × Nat × List (Nat × List Nat)
  | 0, pos, tc, reqs => (pos, tc, reqs)
  | k + 1, pos, tc, reqs =>
    let idR := readBytes buf pos 8
    if skipExisting && cacheHas cache tc then
      if nbTex ≤ tc + 1 then (idR.2, tc + 1, reqs)
      else nameEntries buf nbTex skipExisting cache k idR.2 (tc + 1) reqs
    else
      if nbTex ≤ tc + 1 then (idR.2, tc + 1, reqs ++ [(tc, idR.1)])
      else nameEntries buf nbTex skipExisting cache k idR.2 (tc + 1) (reqs ++ [(tc, idR.1)])

/-- The directory block loop (`while (texCounter < nbTex && reader.canRead(8))`):
4-byte tag, 4-byte size (sanity-checked), then the TEXN / NAME / PVRT
dispatch, each ending with a seek to the block end. The first `Nat` is a
recursion budget (every iteration advances the cursor by at least 8
bytes, so any budget above `size / 8 + 1` is never exhausted); the stated
properties hold for every budget. -/
def texLoop (buf : Bytes) (nbTex : Nat) (skipExisting : Bool) :
    Nat → Nat → Nat → List (Nat × List Nat) → TexCache →
      TexCache × List (Nat × List Nat)
  | 0, _, _, reqs, cache => (cache, reqs)
  | fuel + 1, pos, tc, reqs, cache =>
    if tc < nbTex ∧ canRead buf pos 8 = true then
      let mR := readString buf pos 4
      let szR := readUInt32 buf mR.2
      if szR.1 < 8 ∨ 0x1000000 < szR.1 then (cache, reqs)
      else
        let nodeEnd := pos + szR.1
        if mR.1 = texnCodes then
          if skipExisting && cacheHas cache tc then
            texLoop buf nbTex skipExisting fuel (seekPos buf (nodeEnd : Int)) (tc + 1)
              reqs cache
          else
            let idR := readBytes buf szR.2 8
            let cache1 :=
              match scanPVRT buf nodeEnd nodeEnd idR.2 with
              | some pAfter =>
                let lenR := readUInt32 buf pAfter
                cacheSet cache tc (pvrDecode ((buf.drop lenR.2).take lenR.1))
              | none => cache
            texLoop buf nbTex skipExisting fuel (seekPos buf (nodeEnd : Int)) (tc + 1)
              reqs cache1
        else if mR.1 = nameCodes then
          let ne1 := nameEntries buf nbTex skipExisting cache ((szR.1 - 8) / 8) szR.2 tc reqs
          texLoop buf nbTex skipExisting fuel (seekPos buf (nodeEnd : Int)) ne1.2.1
            ne1.2.2 cache
        else if mR.1 = pvrtCodes then
          if skipExisting && cacheHas cache tc then
            texLoop buf nbTex skipExisting fuel (seekPos buf (nodeEnd : Int)) (tc + 1)
              reqs cache
          else
            let lenR := readUInt32 buf szR.2
            texLoop buf nbTex skipExisting fuel (seekPos buf (nodeEnd : Int)) (tc + 1)
              reqs (cacheSet cache tc (pvrDecode ((buf.drop lenR.2).take lenR.1)))
        else
          texLoop buf nbTex skipExisting fuel (seekPos buf (nodeEnd : Int)) tc reqs cache
    else (cache, reqs)

/-- Little-endian 32-bit word of an 8-byte identifier at offset `o`
(`DataView.getUint32` over the request id bytes). -/
def idWord (id : List Nat) (o : Nat) : Nat :=
  id.getD o 0 % 256 + 256 * (id.getD (o + 1) 0 % 256) +
    65536 * (id.getD (o + 2) 0 % 256) + 16777216 * (id.getD (o + 3) 0 % 256)

/-- Scan one auxiliary pack for an identifier: flat
`(8-byte id, 4-byte length, payload)` records, with a sanity check on the
length; on a match return the payload slice. Budgeted recursion (every
iteration advances by at least 13 bytes). -/
def findInPack (pack : Bytes) (hi lo : Nat) : Nat → Nat → Option (List Nat)
  | 0, _ => none
  | fuel + 1, pos =>
    if pos + 12 < pack.length then
      let eHi := u32At pack pos
      let eLo := u32At pack (pos + 4)
      let eLen := u32At pack (pos + 8)
      if eLen = 0 ∨ 0x1000000 < eLen then none
      else
        let p1 := seekPos pack ((pos + 12 : Nat) : Int)
        if eHi = hi ∧ eLo = lo then some ((pack.drop p1).take eLen)
        else findInPack pack hi lo fuel (skipPos pack p1 (eLen : Int))
    else none

/-- The external-reference resolution pass: for each pending
`(slot, identifier)` request scan the pack from the start and bind the
decoded payload on a match (the decoder always yields a texture, so a
match always binds). -/
def resolveRequests (pack : Bytes) (fuel : Nat) (reqs : List (Nat × List Nat))
    (cache : TexCache) : TexCache :=
  reqs.foldl (fun c req =>
    match findInPack pack (idWord req.2 0) (idWord req.2 4) fuel 0 with
    | some payload => cacheSet c req.1 (pvrDecode payload)
    | none => c) cache

/-- `Mt5Loader.readTextures`: validate the TEXD tag, read header size and
expected count, run the block loop from `texdStart + headerSize`, then
resolve pending external references against the pack when one is given. -/
def readTextures (buf : Bytes) (fuel texOffset : Nat) (pack : Option Bytes)
    (skipExisting : Bool) (cache : TexCache) : TexCache :=
  let start := seekPos buf (texOffset : Int)
  let sigR := readString buf start 4
  if sigR.1 ≠ texdCodes then cache
  else
    let hsR := readUInt32 buf sigR.2
    let ntR := readUInt32 buf hsR.2
    let p := seekPos buf ((start + hsR.1 : Nat) : Int)
    let lr := texLoop buf ntR.1 skipExisting fuel p 0 [] cache
    match pack with
    | some pk => if lr.2 ≠ [] then resolveRequests pk fuel lr.2 lr.1 else lr.1
    | none => lr.1

theorem cacheGet_set_ne (c : TexCache) (j k : Nat) (v : TexImage) (h : k ≠ j) :
    cacheGet (cacheSet c j v) k = cacheGet c k := by
  simp only [cacheGet, cacheSet, List.lookup]
  have hb : (k == j) = false := beq_eq_false_iff_ne.mpr h
  rw [hb]

theorem cacheHas_of_inv {c0 cache : TexCache}
    (hinv : ∀ s, cacheHas c0 s = true → cacheGet cache s = cacheGet c0 s)
    (s : Nat) (hs : cacheHas c0 s = true) : cacheHas cache s = true := by
  rw [cacheHas, hinv s hs]
  exact hs

/-- A skip-existing NAME loop only queues slots that are unbound in the
cache it checks against. -/
theorem nameEntries_spec (buf : Bytes) (nbTex : Nat) (cache : TexCache) :
    ∀ k pos tc reqs,
      ∃ new, (nameEntries buf nbTex true cache k pos tc reqs).2.2 = reqs ++ new ∧
        ∀ e ∈ new, cacheHas cache e.1 = false := by
  intro k
  induction k with
  | zero =>
    intro pos tc reqs
    exact ⟨[], by simp [nameEntries], by simp⟩
  | succ k ih =>
    intro pos tc reqs
    simp only [nameEntries, Bool.true_and]
    by_cases hh : cacheHas cache tc = true
    · rw [if_pos hh]
      by_cases hb : nbTex ≤ tc + 1
      · rw [if_pos hb]
        exact ⟨[], by simp, by simp⟩
      · rw [if_neg hb]
        exact ih _ _ _
    · rw [if_neg hh]
      have hhf : cacheHas cache tc = false := Bool.eq_false_iff.mpr hh
      by_cases hb : nbTex ≤ tc + 1
      · rw [if_pos hb]
        refine ⟨[(tc, (readBytes buf pos 8).1)], by simp, ?_⟩
        intro e he
        simp only [List.mem_singleton] at he
        rw [he]
        exact hhf
      · rw [if_neg hb]
        obtain ⟨new, hnew, hprop⟩ := ih (readBytes buf pos 8).2 (tc + 1)
          (reqs ++ [(tc, (readBytes buf pos 8).1)])
        refine ⟨[(tc, (readBytes buf pos 8).1)] ++ new, by rw [hnew]; simp, ?_⟩
        intro e he
        rcases List.mem_append.mp he with hm | hm
        · simp only [List.mem_singleton] at hm
          rw [hm]
          exact hhf
        · exact hprop e hm

/-- A skip-existing block-loop pass never rebinds a slot already bound in
`c0`, and every queued request names a slot unbound in `c0`. -/
theorem texLoop_skip_preserves (buf : Bytes) (nbTex : Nat) (c0 : TexCache) :
    ∀ fuel pos tc reqs cache,
      (∀ s, cacheHas c0 s = true → cacheGet cache s = cacheGet c0 s) →
      (∀ e ∈ reqs, cacheHas c0 e.1 = false) →
      (∀ s, cacheHas c0 s = true →
        cacheGet (texLoop buf nbTex true fuel pos tc reqs cache).1 s = cacheGet c0 s) ∧
      (∀ e ∈ (texLoop buf nbTex true fuel pos tc reqs cache).2,
        cacheHas c0 e.1 = false) := by
  intro fuel
  induction fuel with
  | zero =>
    intro pos tc reqs cache hinv hreq
    exact ⟨fun s hs => hinv s hs, hreq⟩
  | succ fuel ih =>
    intro pos tc reqs cache hinv hreq
    simp only [texLoop, Bool.true_and]
    by_cases hg : tc < nbTex ∧ canRead buf pos 8 = true
    · rw [if_pos hg]
      by_cases hsz : (readUInt32 buf (readString buf pos 4).2).1 < 8 ∨
          0x1000000 < (readUInt32 buf (readString buf pos 4).2).1
      · rw [if_pos hsz]
        exact ⟨fun s hs => hinv s hs, hreq⟩
      · rw [if_neg hsz]
        by_cases hm1 : (readString buf pos 4).1 = texnCodes
        · rw [if_pos hm1]
          by_cases hskip : cacheHas cache tc = true
          · rw [if_pos hskip]
            exact ih _ _ _ _ hinv hreq
          · rw [if_neg hskip]
            have htc0 : cacheHas c0 tc = false := by
              by_cases h : cacheHas c0 tc = true
              · exact absurd (cacheHas_of_inv hinv tc h) hskip
              · exact Bool.eq_false_iff.mpr h
            have hinv1 : ∀ (v : TexImage) (s : Nat), cacheHas c0 s = true →
                cacheGet (cacheSet cache tc v) s = cacheGet c0 s := by
              intro v s hs
              have hne : s ≠ tc := fun he => by rw [he] at hs; rw [hs] at htc0; cases htc0
              rw [cacheGet_set_ne cache tc s v hne]
              exact hinv s hs
            rcases hscan : scanPVRT buf (pos + (readUInt32 buf (readString buf pos 4).2).1)
                (pos + (readUInt32 buf (readString buf pos 4).2).1)
                (readBytes buf (readUInt32 buf (readString buf pos 4).2).2 8).2 with _ | pA
            · exact ih _ _ _ _ hinv hreq
            · exact ih _ _ _ _ (hinv1 _) hreq
        · rw [if_neg hm1]
          by_cases hm2 : (readString buf pos 4).1 = nameCodes
          · rw [if_pos hm2]
            obtain ⟨new, hnew, hprop⟩ := nameEntries_spec buf nbTex cache
              (((readUInt32 buf (readString buf pos 4).2).1 - 8) / 8)
              (readUInt32 buf (readString buf pos 4).2).2 tc reqs
            refine ih _ _ _ _ hinv ?_
            rw [hnew]
            intro e he
            rcases List.mem_append.mp he with hm | hm
            · exact hreq e hm
            · have := hprop e hm
              by_cases h : cacheHas c0 e.1 = true
              · rw [cacheHas_of_inv hinv e.1 h] at this
                cases this
              · exact Bool.eq_false_iff.mpr h
          · rw [if_neg hm2]
            by_cases hm3 : (readString buf pos 4).1 = pvrtCodes
            · rw [if_pos hm3]
              by_cases hskip : cacheHas cache tc = true
              · rw [if_pos hskip]
                exact ih _ _ _ _ hinv hreq
              · rw [if_neg hskip]
                have htc0 : cacheHas c0 tc = false := by
                  by_cases h : cacheHas c0 tc = true
                  · exact absurd (cacheHas_of_inv hinv tc h) hskip
                  · exact Bool.eq_false_iff.mpr h
                refine ih _ _ _ _ ?_ hreq
                intro s hs
                have hne : s ≠ tc := fun he => by rw [he] at hs; rw [hs] at htc0; cases htc0
                rw [cacheGet_set_ne cache tc s _ hne]
                exact hinv s hs
            · rw [if_neg hm3]
              exact ih _ _ _ _ hinv hreq
    · rw [if_neg hg]
      exact ⟨fun s hs => hinv s hs, hreq⟩

/-- The resolution pass binds only queued slots, so bindings of slots
outside the request list survive unchanged. -/
theorem resolveRequests_preserves (pack : Bytes) (fuel : Nat) (c0 : TexCache) :
    ∀ reqs cache,
      (∀ e ∈ reqs, cacheHas c0 e.1 = false) →
      (∀ s, cacheHas c0 s = true → cacheGet cache s = cacheGet c0 s) →
      ∀ s, cacheHas c0 s = true →
        cacheGet (resolveRequests pack fuel reqs cache) s = cacheGet c0 s := by
  intro reqs
  induction reqs with
  | nil =>
    intro cache hreq hinv s hs
    exact hinv s hs
  | cons e reqs ih =>
    intro cache hreq hinv s hs
    have he0 : cacheHas c0 e.1 = false := hreq e (by simp)
    refine ih _ (fun x hx => hreq x (by simp [hx])) ?_ s hs
    intro s2 hs2
    rcases hf : findInPack pack (idWord e.2 0) (idWord e.2 4) fuel 0 with _ | payload
    · simp only [resolveRequests, List.foldl_cons]
      rw [hf]
      exact hinv s2 hs2
    · simp only [resolveRequests, List.foldl_cons]
      rw [hf]
      have hne : s2 ≠ e.1 := fun hh => by rw [hh] at hs2; rw [hs2] at he0; cases he0
      rw [cacheGet_set_ne cache e.1 s2 _ hne]
      exact hinv s2 hs2

/-- A whole skip-existing `readTextures` pass leaves every already-bound
slot bound to the same texture. -/
theorem readTextures_skip_preserves (buf : Bytes) (fuel texOffset : Nat)
    (pack : Option Bytes) (cache : TexCache) (s : Nat)
    (hs : cacheHas cache s = true) :
    cacheGet (readTextures buf fuel texOffset pack true cache) s = cacheGet cache s := by
  rw [readTextures]
  by_cases hsig : (readString buf (seekPos buf (texOffset : Int)) 4).1 ≠ texdCodes
  · rw [if_pos hsig]
  · rw [if_neg hsig]
    obtain ⟨hA, hB⟩ := texLoop_skip_preserves buf
      (readUInt32 buf (readUInt32 buf (readString buf (seekPos buf (texOffset : Int)) 4).2).2).1
      cache fuel
      (seekPos buf ((seekPos buf (texOffset : Int) +
        (readUInt32 buf (readString buf (seekPos buf (texOffset : Int)) 4).2).1 : Nat) : Int))
      0 [] cache (fun _ _ => rfl) (by simp)
    cases pack with
    | none => exact hA s hs
    | some pk =>
      dsimp only
      by_cases hr : (texLoop buf
          (readUInt32 buf (readUInt32 buf
            (readString buf (seekPos buf (texOffset : Int)) 4).2).2).1 true fuel
          (seekPos buf ((seekPos buf (texOffset : Int) +
            (readUInt32 buf (readString buf (seekPos buf (texOffset : Int)) 4).2).1 : Nat) : Int))
          0 [] cache).2 ≠ []
      · rw [if_pos hr]
        exact resolveRequests_preserves pk fuel cache _ _ hB hA s hs
      · rw [if_neg hr]
        exact hA s hs

/-- C9: with a time-variant pack and a base pack, the time-variant pass
runs first and the skip-existing base pass only fills gaps: a slot bound
by the time-variant pass keeps its binding through the base pass, and any
slot whose binding changed in the base pass was unbound at the end of the
time-variant pass. -/
theorem readTextures_two_pass_priority (buf : Bytes) (fuel texOffset : Nat)
    (timePack : Bytes) (basePack : Option Bytes) (slot : Nat) :
    (cacheHas (readTextures buf fuel texOffset (some timePack) false []) slot = true →
      cacheGet (readTextures buf fuel texOffset basePack true
          (readTextures buf fuel texOffset (some timePack) false [])) slot =
        cacheGet (readTextures buf fuel texOffset (some timePack) false []) slot) ∧
    (cacheGet (readTextures buf fuel texOffset basePack true
          (readTextures buf fuel texOffset (some timePack) false [])) slot ≠
        cacheGet (readTextures buf fuel texOffset (some timePack) false []) slot →
      cacheHas (readTextures buf fuel texOffset (some timePack) false []) slot = false) := by
  constructor
  · intro hs
    exact readTextures_skip_preserves buf fuel texOffset basePack _ slot hs
  · intro hne
    by_cases h : cacheHas (readTextures buf fuel texOffset (some timePack) false []) slot = true
    · exact absurd (readTextures_skip_preserves buf fuel texOffset basePack _ slot h) hne
    · exact Bool.eq_false_iff.mpr h

/-- A concrete model-buffer texture directory for the C9 witness: one TEXN
block embedding the example texture. -/
def texWitnessBuf : Bytes :=
  [84, 69, 88, 68, 12, 0, 0, 0, 1, 0, 0, 0,
   84, 69, 88, 78, 36, 0, 0, 0, 1, 2, 3, 4, 5, 6, 7, 8,
   80, 86, 82, 84, 12, 0, 0, 0] ++ pvrExampleInput

/-- C9, witness: slot 0 is bound by the first pass over the witness
directory and keeps its binding through the skip-existing second pass. -/
theorem readTextures_two_pass_priority_witness :
    cacheGet (readTextures texWitnessBuf 8 0 none true
        (readTextures texWitnessBuf 8 0 (some []) false [])) 0 =
      cacheGet (readTextures texWitnessBuf 8 0 (some []) false []) 0 :=
  (readTextures_two_pass_priority texWitnessBuf 8 0 [] none 0).1 (by decide)
